import Mathlib

/-!
Shallow embedding of the Go library `fn` (package fn, src/fn.go).

Go slices are modelled as `List α` (value semantics; the claims under
study are about the sequences of values, not about backing storage),
except for `Reverse`, whose two-pointer swap loop is index-based and is
modelled on `Array α`.  Go `int` arguments that can be negative are
modelled as `Int`.  A Go runtime panic (out-of-range slice bound) is
modelled by an `Option` result being `none`.
-/

namespace fn

/-- Go `Clamp[T cmp.Ordered](value, min, max T) T`: returns `min` if
`value < min`, `max` if `value > max`, else `value`.  The bound
parameters are renamed `lo`/`hi` here because `min`/`max` are taken. -/
def Clamp {α : Type} [LinearOrder α] (value lo hi : α) : α :=
  if value < lo then lo
  else if value > hi then hi
  else value

/-- Go `Limit[T any](slice []T, n int) []T`, which evaluates
`slice[:min(len(slice), n)]`.  When the bound `min(len(slice), n)` is
negative the Go slice expression panics; the panic is modelled as
`none`. -/
def Limit {α : Type} (slice : List α) (n : Int) : Option (List α) :=
  let k : Int := min (slice.length : Int) n
  if k < 0 then none else some (slice.take k.toNat)

/-- Go `Filter[T any](slice []T, pred func(T) bool) []T`: appends to a
fresh slice every element satisfying the predicate, in order. -/
def Filter {α : Type} (slice : List α) (pred : α → Bool) : List α :=
  match slice with
  | [] => []
  | x :: rest => if pred x then x :: Filter rest pred else Filter rest pred

/-- Go `Reduce[T, R any](slice []T, initial R, f func(R, T) R) R`: the
loop `result = f(result, slice[i])` over indices in order. -/
def Reduce {α β : Type} (slice : List α) (initial : β) (f : β → α → β) : β :=
  match slice with
  | [] => initial
  | x :: rest => Reduce rest (f initial x) f

/-- The dedup loop inside Go `Unique`: `seen` models the Go map of
values already kept (Go map membership becomes list membership), and
the kept values are returned in order. -/
def dedupFirst {α : Type} [DecidableEq α] (seen : List α) : List α → List α
  | [] => []
  | v :: rest =>
    if v ∈ seen then dedupFirst seen rest
    else v :: dedupFirst (v :: seen) rest

/-- Go `Unique[T comparable](slice []T) []T`: slices of length ≤ 1 are
returned unchanged; otherwise duplicates are removed keeping the first
occurrence of each value (the in-place compaction returns the sequence
of kept values, which `dedupFirst` produces). -/
def Unique {α : Type} [DecidableEq α] (slice : List α) : List α :=
  if slice.length ≤ 1 then slice else dedupFirst [] slice

/-- Go `First[T any](slice []T, pred func(T) bool) (T, bool)`: first
matching element with `true`, else the zero value (modelled by
`default`) with `false`. -/
def First {α : Type} [Inhabited α] (slice : List α) (pred : α → Bool) : α × Bool :=
  match slice with
  | [] => (default, false)
  | x :: rest => if pred x then (x, true) else First rest pred

/-- The chunking loop of Go `Batch` for a positive batch size `k + 1`:
while `batchSize < len(slice)`, peel off `slice[0:batchSize]`; finally
append the non-empty remainder.  The Go batch size `batchSize ≥ 1` is
represented as `k + 1` so that termination is structural on length. -/
def chunksPos {α : Type} (slice : List α) (k : Nat) : List (List α) :=
  if h : k + 1 < slice.length then
    slice.take (k + 1) :: chunksPos (slice.drop (k + 1)) k
  else if 0 < slice.length then [slice] else []
termination_by slice.length
decreasing_by
  simp only [List.length_drop]
  omega

/-- Go `Batch[T any](slice []T, batchSize int) [][]T`: `batchSize ≤ 0`
returns nil (modelled as `[]`), otherwise the chunking loop runs. -/
def Batch {α : Type} (slice : List α) (batchSize : Int) : List (List α) :=
  if batchSize ≤ 0 then [] else chunksPos slice (batchSize.toNat - 1)

/-- The two-pointer loop of Go `Reverse`: while `left < right`, swap
`a[left]` and `a[right]`.  The bound `right < a.size` holds at every
reachable call (the loop starts at `right = len(a)-1` and only
decreases `right`); it is part of the guard so that `Array.swap` is
well-formed, and does not change the function on reachable states. -/
def swapLoop {α : Type} (a : Array α) (left right : Nat) : Array α :=
  if h : left < right ∧ right < a.size then
    swapLoop (a.swap ⟨left, Nat.lt_trans h.1 h.2⟩ ⟨right, h.2⟩) (left + 1) (right - 1)
  else a
termination_by right - left
decreasing_by
  omega

/-- Go `Reverse[T any](a []T)`: reverses in place; the resulting value
of the argument slice is returned. -/
def Reverse {α : Type} (a : Array α) : Array α :=
  swapLoop a 0 (a.size - 1)

/-- The Go standard library `slices.DeleteFunc(s, del)` contract used
by `Delete`: removes every element for which `del` returns true,
preserving the order of the remaining elements. -/
def deleteFunc {α : Type} (slice : List α) (del : α → Bool) : List α :=
  match slice with
  | [] => []
  | x :: rest => if del x then deleteFunc rest del else x :: deleteFunc rest del

/-- Go `Delete[T comparable](slice []T, value T) []T`, which calls
`slices.DeleteFunc(slice, func(el T) bool { return el == value })`. -/
def Delete {α : Type} [DecidableEq α] (slice : List α) (value : α) : List α :=
  deleteFunc slice (fun el => el == value)

/-! ### Helper lemmas -/

theorem Filter_eq_filter {α : Type} (s : List α) (pred : α → Bool) :
    Filter s pred = s.filter pred := by
  induction s with
  | nil => rfl
  | cons x rest ih =>
    simp only [Filter, List.filter_cons]
    by_cases h : pred x = true <;> simp [h, ih]

theorem deleteFunc_eq_filter {α : Type} (s : List α) (del : α → Bool) :
    deleteFunc s del = s.filter (fun x => !(del x)) := by
  induction s with
  | nil => rfl
  | cons x rest ih =>
    simp only [deleteFunc, List.filter_cons]
    by_cases h : del x = true <;> simp [h, ih]

theorem Reduce_eq_foldl {α β : Type} (s : List α) (initial : β) (f : β → α → β) :
    Reduce s initial f = s.foldl f initial := by
  induction s generalizing initial with
  | nil => rfl
  | cons x rest ih => simp [Reduce, List.foldl_cons, ih]

theorem dedupFirst_count {α : Type} [DecidableEq α] (l : List α) (seen : List α) (v : α) :
    (dedupFirst seen l).count v = if v ∈ l ∧ v ∉ seen then 1 else 0 := by
  induction l generalizing seen with
  | nil => simp [dedupFirst]
  | cons x rest ih =>
    simp only [dedupFirst]
    by_cases hx : x ∈ seen
    · rw [if_pos hx, ih]
      by_cases hvx : v = x
      · subst hvx
        simp [hx]
      · simp [List.mem_cons, hvx]
    · rw [if_neg hx, List.count_cons, ih]
      by_cases hvx : v = x
      · subst hvx
        simp [hx, List.mem_cons]
      · have hxv : x ≠ v := Ne.symm hvx
        simp [List.mem_cons, hvx, hxv]

theorem dedupFirst_sublist {α : Type} [DecidableEq α] (l seen : List α) :
    (dedupFirst seen l).Sublist l := by
  induction l generalizing seen with
  | nil => simp [dedupFirst]
  | cons x rest ih =>
    simp only [dedupFirst]
    by_cases hx : x ∈ seen
    · rw [if_pos hx]
      exact (ih seen).cons x
    · rw [if_neg hx]
      exact (ih (x :: seen)).cons₂ x

theorem mem_dedupFirst_not_mem_seen {α : Type} [DecidableEq α]
    {l seen : List α} {v : α} (h : v ∈ dedupFirst seen l) : v ∉ seen := by
  intro hv
  have hc := dedupFirst_count l seen v
  rw [if_neg (fun hand => hand.2 hv)] at hc
  exact (List.count_eq_zero.mp hc) h

theorem dedupFirst_pairwise {α : Type} [DecidableEq α] (l seen : List α) :
    (dedupFirst seen l).Pairwise (fun a b => l.indexOf a < l.indexOf b) := by
  induction l generalizing seen with
  | nil => simp [dedupFirst]
  | cons x rest ih =>
    simp only [dedupFirst]
    by_cases hx : x ∈ seen
    · rw [if_pos hx]
      refine (ih seen).imp_of_mem ?_
      intro a b ha hb hab
      have ha' : x ≠ a := fun h => (mem_dedupFirst_not_mem_seen ha) (h ▸ hx)
      have hb' : x ≠ b := fun h => (mem_dedupFirst_not_mem_seen hb) (h ▸ hx)
      rw [List.indexOf_cons_ne rest ha', List.indexOf_cons_ne rest hb']
      exact Nat.succ_lt_succ hab
    · rw [if_neg hx]
      refine List.Pairwise.cons ?_ ?_
      · intro b hb
        have hb1 : b ∉ x :: seen := mem_dedupFirst_not_mem_seen hb
        have hbx : x ≠ b := fun h => hb1 (by simp [h])
        rw [List.indexOf_cons_self, List.indexOf_cons_ne rest hbx]
        exact Nat.succ_pos _
      · refine (ih (x :: seen)).imp_of_mem ?_
        intro a b ha hb hab
        have ha' : x ≠ a := fun h => (mem_dedupFirst_not_mem_seen ha) (by simp [h])
        have hb' : x ≠ b := fun h => (mem_dedupFirst_not_mem_seen hb) (by simp [h])
        rw [List.indexOf_cons_ne rest ha', List.indexOf_cons_ne rest hb']
        exact Nat.succ_lt_succ hab

theorem dedupFirst_eq_self {α : Type} [DecidableEq α] {l seen : List α}
    (hn : l.Nodup) (hd : ∀ a ∈ l, a ∉ seen) : dedupFirst seen l = l := by
  induction l generalizing seen with
  | nil => rfl
  | cons x rest ih =>
    have hx : x ∉ seen := hd x (by simp)
    simp only [dedupFirst, if_neg hx]
    congr 1
    refine ih (List.Nodup.of_cons hn) ?_
    intro a ha hmem
    rcases List.mem_cons.mp hmem with rfl | hmem'
    · exact (List.nodup_cons.mp hn).1 ha
    · exact hd a (by simp [ha]) hmem'

theorem Unique_count {α : Type} [DecidableEq α] (s : List α) (v : α) :
    (Unique s).count v = if v ∈ s then 1 else 0 := by
  by_cases hl : s.length ≤ 1
  · simp only [Unique, if_pos hl]
    cases s with
    | nil => simp
    | cons x t =>
      cases t with
      | nil => by_cases hvx : v = x <;> simp [hvx]
      | cons y u => simp at hl
  · simp only [Unique, if_neg hl]
    rw [dedupFirst_count]
    simp

theorem Unique_nodup {α : Type} [DecidableEq α] (s : List α) :
    (Unique s).Nodup := by
  rw [List.nodup_iff_count_le_one]
  intro a
  rw [Unique_count]
  split <;> omega

theorem Unique_eq_self_of_nodup {α : Type} [DecidableEq α] {s : List α}
    (hn : s.Nodup) : Unique s = s := by
  by_cases hl : s.length ≤ 1
  · simp [Unique, hl]
  · simp only [Unique, if_neg hl]
    exact dedupFirst_eq_self hn (fun a _ h => (List.not_mem_nil a) h)

theorem chunksPos_flatten {α : Type} (s : List α) (k : Nat) :
    (chunksPos s k).flatten = s := by
  induction s, k using chunksPos.induct with
  | case1 s k h ih =>
    rw [chunksPos, dif_pos h]
    simp [ih]
  | case2 s k h1 h2 =>
    rw [chunksPos, dif_neg h1, if_pos h2]
    simp
  | case3 s k h1 h2 =>
    rw [chunksPos, dif_neg h1, if_neg h2]
    simp at h2
    simp [h2]

theorem chunksPos_ne_nil {α : Type} {s : List α} (hs : 0 < s.length) (k : Nat) :
    chunksPos s k ≠ [] := by
  rw [chunksPos]
  split
  · simp
  · simp

theorem chunksPos_dropLast_length {α : Type} (s : List α) (k : Nat) :
    ∀ c ∈ (chunksPos s k).dropLast, c.length = k + 1 := by
  induction s, k using chunksPos.induct with
  | case1 s k h ih =>
    rw [chunksPos, dif_pos h]
    have hnil : chunksPos (s.drop (k + 1)) k ≠ [] :=
      chunksPos_ne_nil (by simp [List.length_drop]; omega) k
    rw [List.dropLast_cons_of_ne_nil hnil]
    intro c hc
    rcases List.mem_cons.mp hc with rfl | hc'
    · rw [List.length_take]
      omega
    · exact ih c hc'
  | case2 s k h1 h2 =>
    rw [chunksPos, dif_neg h1, if_pos h2]
    simp
  | case3 s k h1 h2 =>
    rw [chunksPos, dif_neg h1, if_neg h2]
    simp

theorem chunksPos_mem_bounds {α : Type} (s : List α) (k : Nat) :
    ∀ c ∈ chunksPos s k, c ≠ [] ∧ c.length ≤ k + 1 := by
  induction s, k using chunksPos.induct with
  | case1 s k h ih =>
    rw [chunksPos, dif_pos h]
    intro c hc
    rcases List.mem_cons.mp hc with rfl | hc'
    · refine ⟨fun hceq => ?_, by simp [List.length_take]⟩
      have := congrArg List.length hceq
      rw [List.length_take, List.length_nil] at this
      omega
    · exact ih c hc'
  | case2 s k h1 h2 =>
    rw [chunksPos, dif_neg h1, if_pos h2]
    intro c hc
    rcases List.mem_singleton.mp hc with rfl
    refine ⟨fun he => by simp [he] at h2, by omega⟩
  | case3 s k h1 h2 =>
    rw [chunksPos, dif_neg h1, if_neg h2]
    simp

theorem swapLoop_size {α : Type} (a : Array α) (l r : Nat) :
    (swapLoop a l r).size = a.size := by
  rw [swapLoop]
  split
  · rename_i h
    have ih := swapLoop_size (a.swap ⟨l, Nat.lt_trans h.1 h.2⟩ ⟨r, h.2⟩) (l + 1) (r - 1)
    rw [ih, Array.size_swap]
  · rfl
termination_by r - l
decreasing_by omega

theorem swap_getElem? {α : Type} (a : Array α) (i j : Fin a.size) (k : Nat) :
    (a.swap i j)[k]? = if k = i.1 then a[j.1]? else if k = j.1 then a[i.1]? else a[k]? := by
  by_cases hk : k < a.size
  · have hk' : k < (a.swap i j).size := by
      rw [Array.size_swap]
      exact hk
    rw [Array.getElem?_eq_getElem hk', Array.getElem_swap]
    by_cases h1 : k = i.1
    · rw [if_pos h1, if_pos h1, Array.getElem?_eq_getElem j.2]
      rfl
    · rw [if_neg h1, if_neg h1]
      by_cases h2 : k = j.1
      · rw [if_pos h2, if_pos h2, Array.getElem?_eq_getElem i.2]
        rfl
      · rw [if_neg h2, if_neg h2, Array.getElem?_eq_getElem hk]
  · have hge : a.size ≤ k := Nat.le_of_not_lt hk
    have h1 : k ≠ i.1 := fun h => hk (h ▸ i.2)
    have h2 : k ≠ j.1 := fun h => hk (h ▸ j.2)
    rw [if_neg h1, if_neg h2,
      Array.getElem?_eq_none_iff.mpr (by rw [Array.size_swap]; exact hge),
      Array.getElem?_eq_none_iff.mpr hge]

theorem swapLoop_getElem? {α : Type} (a : Array α) (l r : Nat) (hr : r < a.size)
    (k : Nat) :
    (swapLoop a l r)[k]? = if l ≤ k ∧ k ≤ r then a[l + r - k]? else a[k]? := by
  rw [swapLoop]
  split
  · rename_i h
    have hr' : r - 1 < (a.swap ⟨l, Nat.lt_trans h.1 h.2⟩ ⟨r, h.2⟩).size := by
      rw [Array.size_swap]
      omega
    rw [swapLoop_getElem? _ (l + 1) (r - 1) hr' k]
    simp only [swap_getElem?]
    split_ifs <;> first | rfl | omega | (congr 1; omega)
  · rename_i h
    by_cases hc : l ≤ k ∧ k ≤ r
    · have hkl : l + r - k = k := by omega
      rw [if_pos hc, hkl]
    · rw [if_neg hc]
termination_by r - l
decreasing_by omega

theorem Reverse_toList {α : Type} (a : Array α) :
    (Reverse a).toList = a.toList.reverse := by
  by_cases h0 : a.size = 0
  · have hnil : a.toList = [] := by
      have : a.toList.length = 0 := by rw [Array.length_toList, h0]
      exact List.length_eq_zero.mp this
    rw [Reverse, h0]
    rw [swapLoop]
    rw [dif_neg (by omega)]
    rw [hnil]
    rfl
  · apply List.ext_getElem?
    intro n
    by_cases hn : n < a.size
    · have h1 : (Reverse a).toList[n]? = (Reverse a)[n]? :=
        (Array.getElem?_eq_getElem?_toList _ n).symm
      rw [h1, Reverse, swapLoop_getElem? a 0 (a.size - 1) (by omega) n,
        if_pos ⟨Nat.zero_le n, by omega⟩, Array.getElem?_eq_getElem?_toList,
        List.getElem?_reverse (by rw [Array.length_toList]; exact hn)]
      congr 1
      rw [Array.length_toList]
      omega
    · have hL : (Reverse a).toList.length ≤ n := by
        rw [Array.length_toList, Reverse, swapLoop_size]
        omega
      have hR : a.toList.reverse.length ≤ n := by
        rw [List.length_reverse, Array.length_toList]
        omega
      rw [List.getElem?_eq_none_iff.mpr hL, List.getElem?_eq_none_iff.mpr hR]

/-! ### Claim theorems -/

/-- C9: `Clamp` checks the lower bound first, so its behavior is defined
even when `lo ≤ hi` is violated: if `value < lo` the result is `lo`
(even when `lo > hi`); otherwise if `value > hi` it is `hi`; otherwise
it is `value`. -/
theorem Clamp_branch_spec {α : Type} [LinearOrder α] (value lo hi : α) :
    (value < lo → Clamp value lo hi = lo) ∧
    (¬ value < lo → hi < value → Clamp value lo hi = hi) ∧
    (¬ value < lo → ¬ hi < value → Clamp value lo hi = value) := by
  refine ⟨fun h => ?_, fun h1 h2 => ?_, fun h1 h2 => ?_⟩ <;>
    simp [Clamp, *]

/-- Witness for C9 at concrete inputs, including a case with
`lo > hi` where the lower-bound branch still fires. -/
theorem Clamp_branch_spec_witness :
    Clamp (1 : Int) 5 3 = 5 ∧ Clamp (9 : Int) 0 4 = 4 ∧ Clamp (2 : Int) 0 4 = 2 :=
  ⟨(Clamp_branch_spec (1 : Int) 5 3).1 (by decide),
   (Clamp_branch_spec (9 : Int) 0 4).2.1 (by decide) (by decide),
   (Clamp_branch_spec (2 : Int) 0 4).2.2 (by decide) (by decide)⟩

/-- C7: `Reduce` is the left fold of `f` over the sequence in index
order; the empty sequence returns the initial accumulator unchanged,
and with initial value 0 and integer addition it returns the sum. -/
theorem Reduce_foldl_spec :
    (∀ (α β : Type) (s : List α) (initial : β) (f : β → α → β),
      Reduce s initial f = s.foldl f initial) ∧
    (∀ (β : Type) (initial : β) (f : β → Int → β),
      Reduce [] initial f = initial) ∧
    (∀ s : List Int, Reduce s 0 (· + ·) = s.sum) := by
  refine ⟨fun α β s initial f => Reduce_eq_foldl s initial f,
    fun β initial f => rfl, fun s => ?_⟩
  have key : ∀ (t : List Int) (a : Int), Reduce t a (· + ·) = a + t.sum := by
    intro t
    induction t with
    | nil => intro a; simp [Reduce]
    | cons x rest ih =>
      intro a
      simp only [Reduce, ih, List.sum_cons]
      ring
  simpa using key s 0

/-- C10: `Delete` agrees with `Filter` under the negated equality
predicate: `Delete s v = Filter s (fun x => x != v)`; all occurrences
of `v` are removed and the remaining elements keep their relative
order (the result is a sublist of `s`). -/
theorem Delete_eq_Filter_ne {α : Type} [DecidableEq α] (s : List α) (v : α) :
    Delete s v = Filter s (fun x => x != v) ∧
    v ∉ Delete s v ∧
    (Delete s v).Sublist s := by
  have hd : Delete s v = s.filter (fun x => !(x == v)) := deleteFunc_eq_filter s _
  refine ⟨?_, ?_, ?_⟩
  · rw [hd, Filter_eq_filter]
    rfl
  · rw [hd]
    intro hmem
    have := (List.mem_filter.mp hmem).2
    simp at this
  · rw [hd]
    exact List.filter_sublist s

/-- C8: `First` returns the element at the smallest index satisfying
the predicate together with `true` when one exists (equivalently, the
`List.find?` result), and the zero value (`default`) with `false` when
no element matches; including the two concrete examples from the
spec. -/
theorem First_spec :
    (∀ (α : Type) [Inhabited α] (s : List α) (pred : α → Bool),
      First s pred = ((s.find? pred).getD default, (s.find? pred).isSome)) ∧
    (∀ (α : Type) [Inhabited α] (s : List α) (pred : α → Bool) (i : Nat)
      (h : i < s.length), pred (s.get ⟨i, h⟩) = true →
      (∀ x ∈ s.take i, pred x = false) →
      First s pred = (s.get ⟨i, h⟩, true)) ∧
    First ([5, 7, 9, 10] : List Int) (fun x => x % 2 == 0) = (10, true) ∧
    First ([5, 7, 9] : List Int) (fun x => x % 2 == 0) = (0, false) := by
  refine ⟨fun α inst s pred => ?_, fun α inst s pred i => ?_, by decide, by decide⟩
  · induction s with
    | nil => rfl
    | cons x rest ih =>
      simp only [First, List.find?]
      by_cases h : pred x <;> simp [h, ih]
  · induction s generalizing i with
    | nil => intro h; exact absurd h (by simp)
    | cons x rest ih =>
      intro h hp htake
      cases i with
      | zero =>
        simp only [List.get] at hp
        simp [First, hp]
      | succ m =>
        have hx : pred x = false := htake x (by simp [List.take_succ_cons])
        have hm : m < rest.length := by simpa using h
        have hp' : pred (rest.get ⟨m, hm⟩) = true := by simpa using hp
        have htake' : ∀ y ∈ rest.take m, pred y = false := by
          intro y hy
          exact htake y (by simp [List.take_succ_cons, hy])
        simp only [First, hx, Bool.false_eq_true, if_false]
        simpa using ih m hm hp' htake'

/-- Witness for C8 applying the smallest-index characterization at a
concrete input. -/
theorem First_spec_witness :
    First ([5, 7, 9, 10] : List Int) (fun x => x % 2 == 0) = (10, true) := by
  have h := First_spec.2.1 Int [5, 7, 9, 10] (fun x => x % 2 == 0) 3
    (by decide) (by decide) (by decide)
  simpa using h

/-- C1 counterexample: `Limit` on a negative `n` evaluates the Go
slice expression `slice[:min(len(slice), n)]` with a negative bound,
which panics (modelled as `none`) — so not every operation of the
library completes without a panic. -/
theorem Limit_neg_one_panics : Limit ([1, 2, 3] : List Int) (-1) = none := by
  decide

/-- C1 amended: every operation of the library completes with a
defined value except `Limit` with `n < 0`, which panics: `Limit s n`
is defined exactly when `0 ≤ n`; `Batch` with `size ≤ 0` returns nil
and `Limit` with `n = 0` returns the defined empty result. -/
theorem ops_total_except_neg_limit (s : List Int) (n : Int) :
    ((Limit s n).isSome ↔ 0 ≤ n) ∧
    (n ≤ 0 → Batch s n = []) ∧
    Limit s 0 = some [] := by
  refine ⟨?_, ?_, ?_⟩
  · simp only [Limit]
    split
    · rename_i hk
      simp only [Option.isSome_none, Bool.false_eq_true, false_iff]
      omega
    · rename_i hk
      simp only [Option.isSome_some, true_iff]
      omega
  · intro hn
    simp [Batch, hn]
  · simp only [Limit]
    have hmin : min ((s.length : Int)) (0 : Int) = 0 := by omega
    rw [hmin]
    simp

/-- Witness for C1's amended claim at concrete inputs. -/
theorem ops_total_witness :
    (Limit ([1, 2] : List Int) 3).isSome = true ∧
    Batch ([1, 2] : List Int) 0 = [] ∧
    Limit ([1, 2] : List Int) 0 = some [] :=
  ⟨(ops_total_except_neg_limit [1, 2] 3).1.mpr (by decide),
   (ops_total_except_neg_limit [1, 2] 0).2.1 (by decide),
   (ops_total_except_neg_limit [1, 2] 0).2.2⟩

/-- C2 counterexample: `Limit` with a negative `n` does not yield an
empty result; it panics (modelled as `none`). -/
theorem Limit_neg_two_panics : Limit ([4] : List Int) (-2) = none := by
  decide

/-- C2 amended: for `0 ≤ n`, `Limit s n` returns the prefix of `s` of
length `min n (len s)`; for `n < 0` it panics (`none`); for
`n ≥ len s` it returns all of `s`. -/
theorem Limit_spec {α : Type} (s : List α) (n : Int) :
    (0 ≤ n →
      Limit s n = some (s.take n.toNat) ∧
      (s.take n.toNat).length = min n.toNat s.length ∧
      ∃ t, s.take n.toNat ++ t = s) ∧
    (n < 0 → Limit s n = none) ∧
    ((s.length : Int) ≤ n → Limit s n = some s) := by
  refine ⟨fun hn => ?_, fun hn => ?_, fun hn => ?_⟩
  · refine ⟨?_, List.length_take _ _, ⟨s.drop n.toNat, List.take_append_drop _ _⟩⟩
    simp only [Limit]
    rw [if_neg (by omega)]
    congr 1
    rw [List.take_eq_take]
    omega
  · simp only [Limit]
    rw [if_pos (by omega)]
  · simp only [Limit]
    rw [if_neg (by omega)]
    have hmin : (min ((s.length : Int)) n).toNat = s.length := by omega
    rw [hmin, List.take_length]

/-- Witness for C2's amended claim at a concrete input. -/
theorem Limit_spec_witness : Limit ([1, 2, 3] : List Nat) 2 = some [1, 2] := by
  have h := (Limit_spec ([1, 2, 3] : List Nat) 2).1 (by decide)
  simpa using h.1

/-- C4: `Unique s` contains each distinct value occurring in `s`
exactly once (count 1 for members, 0 otherwise), is a sublist of `s`
(relative order preserved), lists values in the order of their first
occurrence in `s` (indices of first occurrences strictly increase),
has length at most `len s`, and returns sequences of length ≤ 1
unchanged. -/
theorem Unique_spec {α : Type} [DecidableEq α] (s : List α) :
    (∀ v, (Unique s).count v = if v ∈ s then 1 else 0) ∧
    (Unique s).Sublist s ∧
    (Unique s).Pairwise (fun a b => s.indexOf a < s.indexOf b) ∧
    (Unique s).length ≤ s.length ∧
    (s.length ≤ 1 → Unique s = s) := by
  by_cases hl : s.length ≤ 1
  · have hu : Unique s = s := by simp [Unique, hl]
    refine ⟨Unique_count s, ?_, ?_, ?_, fun _ => hu⟩ <;> rw [hu]
    cases s with
    | nil => simp
    | cons x t =>
      cases t with
      | nil => simp
      | cons y u => simp at hl
  · have hu : Unique s = dedupFirst [] s := by simp [Unique, hl]
    refine ⟨Unique_count s, ?_, ?_, ?_, fun h => absurd h hl⟩ <;> rw [hu]
    · exact dedupFirst_sublist s []
    · exact dedupFirst_pairwise s []
    · exact (dedupFirst_sublist s []).length_le

/-- Witness for C4 at a concrete input with length ≤ 1. -/
theorem Unique_spec_witness : Unique ([7] : List Nat) = [7] :=
  (Unique_spec ([7] : List Nat)).2.2.2.2 (by decide)

/-- C5: `Unique` is idempotent: `Unique (Unique s) = Unique s`. -/
theorem Unique_idempotent {α : Type} [DecidableEq α] (s : List α) :
    Unique (Unique s) = Unique s :=
  Unique_eq_self_of_nodup (Unique_nodup s)

/-- C3: for `size > 0`, `Batch` returns the consecutive chunks of `s`
— every chunk except possibly the last has exactly `size` elements,
every chunk is non-empty with at most `size` elements, and
concatenating the chunks gives back `s`; for `size ≤ 0` the result is
nil; including the spec's concrete examples. -/
theorem Batch_spec {α : Type} (s : List α) (size : Int) :
    (size ≤ 0 → Batch s size = []) ∧
    (0 < size →
      (Batch s size).flatten = s ∧
      (∀ c ∈ (Batch s size).dropLast, c.length = size.toNat) ∧
      (∀ c ∈ Batch s size, c ≠ [] ∧ c.length ≤ size.toNat)) ∧
    Batch ([1, 2, 3, 4, 5, 6, 7] : List Nat) 3 = [[1, 2, 3], [4, 5, 6], [7]] ∧
    Batch ([1, 2, 3, 4, 5, 6, 7] : List Nat) 10 = [[1, 2, 3, 4, 5, 6, 7]] := by
  refine ⟨fun h => by simp [Batch, h], fun h => ?_,
    by simp [Batch, chunksPos], by simp [Batch, chunksPos]⟩
  have hk : size.toNat - 1 + 1 = size.toNat := by omega
  have hb : Batch s size = chunksPos s (size.toNat - 1) := by
    rw [Batch, if_neg (by omega)]
  rw [hb]
  refine ⟨chunksPos_flatten s _, fun c hc => ?_, fun c hc => ?_⟩
  · rw [← hk]
    exact chunksPos_dropLast_length s _ c hc
  · have hm := chunksPos_mem_bounds s _ c hc
    exact ⟨hm.1, hk ▸ hm.2⟩

/-- Witness for C3 at concrete inputs, covering both the `size ≤ 0`
and the `size > 0` branch. -/
theorem Batch_spec_witness :
    Batch ([1, 2] : List Nat) 0 = [] ∧
    (Batch ([1, 2, 3] : List Nat) 2).flatten = [1, 2, 3] :=
  ⟨(Batch_spec ([1, 2] : List Nat) 0).1 (by decide),
   ((Batch_spec ([1, 2, 3] : List Nat) 2).2.1 (by decide)).1⟩

/-- C6: `Reverse` preserves the length of the sequence, applying it
twice restores the original sequence (involution), and a single
`Reverse` leaves the multiset of elements unchanged. -/
theorem Reverse_spec {α : Type} (a : Array α) :
    (Reverse a).size = a.size ∧
    Reverse (Reverse a) = a ∧
    ((Reverse a).toList : Multiset α) = (a.toList : Multiset α) := by
  refine ⟨swapLoop_size a 0 (a.size - 1), ?_, ?_⟩
  · apply Array.ext'
    rw [Reverse_toList, Reverse_toList, List.reverse_reverse]
  · rw [Reverse_toList]
    exact Multiset.coe_eq_coe.mpr (List.reverse_perm a.toList)

end fn
